import Mathlib

/-!
Verification development for the obsidian-filename-heading-sync plugin.

Documents are modelled as lists of lines, and a line as a list of
characters (`Line := List Char`).  JavaScript string operations used by
the plugin (`trim`, `trimEnd`, `replace` with a global regex of literal
alternatives, template stringification of `null`) are given explicit
models.  The plugin exists in several variants in the repository; the
namespace `Core` embeds the current variant (fenced-code-aware locator,
debounced save hook) and the namespace `Advanced` embeds the
frontmatter-capable variant (title cache, per-direction sync targets).
-/

/-- A document line, as a list of characters. -/
abbrev Line := List Char

/-- The JavaScript whitespace class used by `String.prototype.trim` /
`trimEnd`: space, tab, the line terminators, vertical tab, form feed,
NBSP and the BOM. -/
def isJsWhitespace (c : Char) : Bool :=
  c = ' ' || c = '\t' || c = '\n' || c = '\r' ||
  c = '\x0b' || c = '\x0c' || c = ' ' || c = '﻿'

/-- Model of `String.prototype.trimStart`. -/
def trimStart (s : Line) : Line := s.dropWhile isJsWhitespace

/-- Model of `String.prototype.trimEnd`. -/
def trimEnd (s : Line) : Line := (s.reverse.dropWhile isJsWhitespace).reverse

/-- Model of `String.prototype.trim` (both ends). -/
def jsTrim (s : Line) : Line := trimStart (trimEnd s)

/-- The stock illegal symbols of the current variant,
`/[\\/:|#^[\]]/g` — backslash, slash, colon, pipe, hash, caret and the
square brackets. -/
def isStockIllegal (c : Char) : Bool :=
  c = '\\' || c = '/' || c = ':' || c = '|' || c = '#' || c = '^' || c = '[' || c = ']'

/-- One pass of a JavaScript global `replace` with an alternation of
literal patterns (the user illegal symbols are regex-escaped before the
alternation is built, so each alternative matches literally).  The regex
engine scans left to right; at each position the first alternative in
list order that matches wins; a zero-length match (an empty alternative,
or the empty regex produced by an empty symbol list) replaces nothing and
the scan advances one character.  The `skip` counter consumes the
remaining characters of a pattern that has just matched, one at a time,
keeping the recursion structural. -/
def replaceAllGo (pats : List Line) : Line → Nat → Line
  | [], _ => []
  | _ :: rest, skip + 1 => replaceAllGo pats rest skip
  | c :: rest, 0 =>
    match pats.find? (fun p => p.isPrefixOf (c :: rest)) with
    | some [] => c :: replaceAllGo pats rest 0
    | some (_ :: p) => replaceAllGo pats rest p.length
    | none => c :: replaceAllGo pats rest 0

/-- Global replace of an ordered alternation of literal patterns. -/
def replaceAll (pats : List Line) (s : Line) : Line := replaceAllGo pats s 0

/-- `sanitizeHeading` of the current variant: strip the stock illegal
characters (global regex replace of single characters), then globally
replace every user illegal string by the empty string, then `trim`. -/
def sanitizeHeading (userIllegalSymbols : List Line) (text : Line) : Line :=
  jsTrim (replaceAll userIllegalSymbols (text.filter (fun c => !isStockIllegal c)))

/-- The frontmatter delimiter line `---`. -/
def fmDelim : Line := ['-', '-', '-']

/-- `findNoteStart` (identical in the `Core` and `Advanced` variants):
if line 0 is `---`, scan from line 1 for the first further `---` and
return the index just after it; otherwise (or when no closing delimiter
exists) return 0. -/
def findNoteStart (fileLines : List Line) : Nat :=
  match fileLines with
  | [] => 0
  | l0 :: rest =>
    if l0 = fmDelim then
      match rest.findIdx? (fun l => l == fmDelim) with
      | some j => (j + 1) + 1
      | none => 0
    else 0

/-- The heading styles (`HeadingStyle` of the sources; the `Frontmatter`
style exists only in the `Advanced` variant). -/
inductive HeadingStyle where
  | Prefix
  | Underline
  | Frontmatter
deriving DecidableEq, Repr

/-- `LinePointer`: a located title — 0-based line number, text and style. -/
structure LinePointer where
  lineNumber : Nat
  text : Line
  style : HeadingStyle
deriving DecidableEq, Repr

/-- The fenced-code marker `` ``` ``. -/
def fenceMarker : Line := ['`', '`', '`']

/-- The prefix-heading marker `# `. -/
def hashSpace : Line := ['#', ' ']

/-- The escaped-hash marker `\# `. -/
def escapedHash : Line := ['\\', '#', ' ']

/-- Number of backtick characters on a line. -/
def countBackticks (l : Line) : Nat := l.countP (fun c => c == '`')

/-- Does the line match `/^=+$/` — nonempty and consisting only of `=`? -/
def isEqRun (l : Line) : Bool := !l.isEmpty && l.all (fun c => c == '=')

/-- Is this (raw) line a fence toggle, i.e. does
`line.trimEnd().trim()` start with `` ``` ``?  (In the source the loop
variable `line` is the `trimEnd` of the raw line, and the fence check
trims it again.) -/
def isFenceLine (raw : Line) : Bool := fenceMarker.isPrefixOf (jsTrim (trimEnd raw))

namespace Core

/-- The scanning loop of the current variant's `findHeading`.  `i` is the
absolute index of the head of the remaining lines, `insideCodeBlock` the
fence state.  A raw line is `trimEnd`ed first; a fence marker toggles the
state and the line is consumed; lines inside a fence are skipped; a line
starting with `# ` with an even backtick count that is not escaped is a
Prefix heading (text: the remainder after `# `); otherwise, if the next
line exists, its `trim` matches `/^=+$/` and the current line is nonempty
with an even backtick count, it is an Underline heading (text: the
`trimEnd`ed line verbatim). -/
def findHeadingGo (i : Nat) (insideCodeBlock : Bool) : List Line → Option LinePointer
  | [] => none
  | raw :: rest =>
    if fenceMarker.isPrefixOf (jsTrim (trimEnd raw)) then
      findHeadingGo (i + 1) (!insideCodeBlock) rest
    else if insideCodeBlock then
      findHeadingGo (i + 1) insideCodeBlock rest
    else if hashSpace.isPrefixOf (trimEnd raw) && countBackticks (trimEnd raw) % 2 == 0
            && !(escapedHash.isPrefixOf (trimEnd raw)) then
      some ⟨i, (trimEnd raw).drop 2, .Prefix⟩
    else
      match rest.head? with
      | some next =>
        if isEqRun (jsTrim next) && (trimEnd raw).length > 0
            && countBackticks (trimEnd raw) % 2 == 0 then
          some ⟨i, trimEnd raw, .Underline⟩
        else
          findHeadingGo (i + 1) insideCodeBlock rest
      | none => findHeadingGo (i + 1) insideCodeBlock rest

/-- `findHeading` of the current variant: scan from `startLine` to the
end of the document with fence tracking. -/
def findHeading (fileLines : List Line) (startLine : Nat) : Option LinePointer :=
  findHeadingGo startLine false (fileLines.drop startLine)

end Core

/-- `replaceLineInFile` (identical in both variants): replace the line
at `lineNumber`; if `lineNumber` is past the last line, append the text
with a trailing newline character instead. -/
def replaceLineInFile (fileLines : List Line) (lineNumber : Nat) (text : Line) : List Line :=
  if lineNumber ≥ fileLines.length then fileLines ++ [text ++ ['\n']]
  else fileLines.set lineNumber text

/-- `insertLineInFile` (identical in both variants): splice the text in
at `lineNumber`; if `lineNumber` is past the last line, append the text
with a trailing newline character instead. -/
def insertLineInFile (fileLines : List Line) (lineNumber : Nat) (text : Line) : List Line :=
  if lineNumber ≥ fileLines.length then fileLines ++ [text ++ ['\n']]
  else fileLines.insertIdx lineNumber text

/-- The settings consumed by the rewriter: new-heading style choice,
style-replace flag, and the underline string. -/
structure RewriteSettings where
  newHeadingStyle : HeadingStyle
  replaceStyle : Bool
  underlineString : Line
deriving Repr

/-- `insertHeading` (identical in both variants): Underline style
inserts the title line and then the configured underline string on the
next line; Prefix style inserts `# <heading>`.  (A `Frontmatter` new
style hits no switch case and leaves the document unchanged.) -/
def insertHeading (s : RewriteSettings) (fileLines : List Line) (lineNumber : Nat)
    (heading : Line) : List Line :=
  match s.newHeadingStyle with
  | .Underline =>
    insertLineInFile (insertLineInFile fileLines lineNumber heading)
      (lineNumber + 1) s.underlineString
  | .Prefix => insertLineInFile fileLines lineNumber (hashSpace ++ heading)
  | .Frontmatter => fileLines

/-- `replaceHeading` (identical in both variants): with style
replacement enabled, convert to the configured style (Prefix→Underline
inserts the underline line, Underline→Prefix blanks the old underline
line by replacing it with the empty string, Underline→Underline
refreshes the underline string); with it disabled, keep the old style
and only swap the text.  (An oldStyle or newStyle of `Frontmatter` hits
no switch case in the source and leaves the corresponding step out.) -/
def replaceHeading (s : RewriteSettings) (fileLines : List Line) (lineNumber : Nat)
    (oldStyle : HeadingStyle) (newHeading : Line) : List Line :=
  if s.replaceStyle then
    match s.newHeadingStyle with
    | .Underline =>
      let fl := replaceLineInFile fileLines lineNumber newHeading
      match oldStyle with
      | .Prefix => insertLineInFile fl (lineNumber + 1) s.underlineString
      | .Underline => replaceLineInFile fl (lineNumber + 1) s.underlineString
      | .Frontmatter => fl
    | .Prefix =>
      let fl := replaceLineInFile fileLines lineNumber (hashSpace ++ newHeading)
      match oldStyle with
      | .Prefix => fl
      | .Underline => replaceLineInFile fl (lineNumber + 1) []
      | .Frontmatter => fl
    | .Frontmatter => fileLines
  else
    match oldStyle with
    | .Underline => replaceLineInFile fileLines lineNumber newHeading
    | .Prefix => replaceLineInFile fileLines lineNumber (hashSpace ++ newHeading)
    | .Frontmatter => fileLines

/-- The possible results of indexing a JavaScript
`{ [key: string]: null }` map: `undefined` when the key is absent,
`null` (the only value the plugin ever stores) when present. -/
inductive JsLookup where
  | undefined
  | null
deriving DecidableEq, Repr

/-- Indexing the manually-ignored-files map. -/
def lookupIgnored (ignoredFiles : List String) (path : String) : JsLookup :=
  if path ∈ ignoredFiles then .null else .undefined

/-- The `!== undefined` membership test. -/
def JsLookup.isDefined : JsLookup → Bool
  | .undefined => false
  | .null => true

/-- JavaScript truthiness of the looked-up value: both `undefined` and
`null` are falsy. -/
def JsLookup.truthy : JsLookup → Bool
  | .undefined => false
  | .null => false

namespace Core

/-- The settings of the current variant that the embedded operations
consume.  `ignoreRegex` is `none` when the setting is the empty string
or an invalid regex (both make the rule inert in the source), otherwise
an oracle for the compiled regex's match test. -/
structure Settings where
  userIllegalSymbols : List Line
  ignoreRegex : Option (String → Bool)
  ignoredFiles : List String
  newHeadingStyle : HeadingStyle
  replaceStyle : Bool
  underlineString : Line
  insertHeadingIfMissing : Bool

/-- The rewriter settings of a settings record. -/
def Settings.rw (s : Settings) : RewriteSettings :=
  ⟨s.newHeadingStyle, s.replaceStyle, s.underlineString⟩

/-- `fileIsIgnored` of the current variant: excluded file types, then
the manually-ignored map (a `!== undefined` membership test), then the
ignore regex (an empty or invalid regex never matches).  `excluded` is
the oracle for `isExcluded` (extension / frontmatter-marker detection
against the host metadata cache). -/
def fileIsIgnored (s : Settings) (excluded : Bool) (path : String) : Bool :=
  if excluded then true
  else if (lookupIgnored s.ignoredFiles path).isDefined then true
  else
    match s.ignoreRegex with
    | none => false
    | some reg => reg path

/-- The effect of a sync pass on the vault: nothing, a rename of the
file to a new sanitized basename, or a content modification giving the
new lines. -/
inductive SyncAction where
  | none
  | rename (newBasename : Line)
  | modify (newLines : List Line)
deriving DecidableEq, Repr

/-- The decision logic of `forceSyncHeadingToFilename` of the current
variant: find the first heading after frontmatter; when one exists,
is nonempty after sanitization and differs from the sanitized basename,
rename the file to the sanitized heading. -/
def forceSyncHeadingToFilenameAction (s : Settings) (lines : List Line)
    (basename : Line) : SyncAction :=
  match findHeading lines (findNoteStart lines) with
  | Option.none => .none
  | some heading =>
    let sanitizedHeading := sanitizeHeading s.userIllegalSymbols heading.text
    if sanitizedHeading.length > 0 &&
        sanitizeHeading s.userIllegalSymbols basename != sanitizedHeading then
      .rename sanitizedHeading
    else .none

/-- The decision logic of `forceSyncFilenameToHeading` of the current
variant: sanitize the basename; replace the first heading when it exists
and its sanitized text differs, else insert a heading when
`insertHeadingIfMissing` is set. -/
def forceSyncFilenameToHeadingAction (s : Settings) (lines : List Line)
    (basename : Line) : SyncAction :=
  let sanitizedHeading := sanitizeHeading s.userIllegalSymbols basename
  let start := findNoteStart lines
  match findHeading lines start with
  | some heading =>
    if sanitizeHeading s.userIllegalSymbols heading.text != sanitizedHeading then
      .modify (replaceHeading s.rw lines heading.lineNumber heading.style sanitizedHeading)
    else .none
  | Option.none =>
    if s.insertHeadingIfMissing then .modify (insertHeading s.rw lines start sanitizedHeading)
    else .none

/-- The rename handler `handleSyncFilenameToHeading` of the current
variant, for a markdown `TFile` (non-files and non-`md` extensions bail
before any of the modelled logic).  Returns the new manually-ignored map
together with the content action performed.  When the (trimmed) old path
is ignored: same path ⇒ nothing; changed path ⇒ migrate the ignore-map
membership only if the stored value is truthy (the stored value is
always `null`), then stop.  Otherwise run the filename→heading sync. -/
def handleSyncFilenameToHeading (s : Settings) (isRenameInProgress : Bool)
    (excluded : Bool) (path : String) (basename : Line) (lines : List Line)
    (oldPath : String) : List String × SyncAction :=
  if isRenameInProgress then (s.ignoredFiles, .none)
  else if fileIsIgnored s excluded ⟨jsTrim oldPath.toList⟩ then
    if path = oldPath then (s.ignoredFiles, .none)
    else if (lookupIgnored s.ignoredFiles oldPath).truthy then
      ((s.ignoredFiles.erase oldPath) ++ [path], .none)
    else (s.ignoredFiles, .none)
  else (s.ignoredFiles, forceSyncFilenameToHeadingAction s lines basename)

end Core

namespace Advanced

/-- `TitleType` of the advanced variant. -/
inductive TitleType where
  | Filename
  | Frontmatter
  | Heading
deriving DecidableEq, Repr

/-- The advanced variant's settings consumed by the embedded
operations.  As in `Core.Settings`, `ignoreRegex` is `none` for an empty
or invalid rule and an oracle otherwise; the three `sync*` fields are
the per-direction target sets. -/
structure Settings where
  userIllegalSymbols : List Line
  ignoreRegex : Option (String → Bool)
  ignoredFiles : List String
  newHeadingStyle : HeadingStyle
  replaceStyle : Bool
  underlineString : Line
  frontmatterTitleKey : Line
  contentPrecedence : TitleType
  syncFilename : List TitleType
  syncHeading : List TitleType
  syncFrontmatter : List TitleType

/-- The rewriter settings of an advanced settings record. -/
def Settings.rw (s : Settings) : RewriteSettings :=
  ⟨s.newHeadingStyle, s.replaceStyle, s.underlineString⟩

/-- `fileIsIgnored` of the advanced variant (the `return;` on an empty
regex yields `undefined`, falsy at every call site, modelled as
`false`). -/
def fileIsIgnored (s : Settings) (excluded : Bool) (path : String) : Bool :=
  if excluded then true
  else if (lookupIgnored s.ignoredFiles path).isDefined then true
  else
    match s.ignoreRegex with
    | none => false
    | some reg => reg path

/-- `findHeading` of the advanced variant: no fence tracking, no
trimming of the candidate line, no escape or backtick checks; a line
starting with `# ` is a Prefix heading, otherwise a line whose successor
matches `/^=+$/` (untrimmed) is an Underline heading. -/
def findHeadingGo (i : Nat) : List Line → Option LinePointer
  | [] => none
  | l :: rest =>
    if hashSpace.isPrefixOf l then some ⟨i, l.drop 2, .Prefix⟩
    else
      match rest.head? with
      | some next =>
        if isEqRun next then some ⟨i, l, .Underline⟩
        else findHeadingGo (i + 1) rest
      | none => findHeadingGo (i + 1) rest

/-- `findHeading` of the advanced variant. -/
def findHeading (fileLines : List Line) (startLine : Nat) : Option LinePointer :=
  findHeadingGo startLine (fileLines.drop startLine)

/-- Strip one leading and one trailing quote character, the model of
`.replace(/^"|"$/g, '')`. -/
def stripEdgeQuotes (l : Line) : Line :=
  let l := match l with
    | '"' :: rest => rest
    | other => other
  match l.getLast? with
  | some '"' => l.dropLast
  | _ => l

/-- `findFrontmatterTitle`: only valid when line 0 is `---`; scan until
the closing delimiter (returning `none` when it is reached) for a line
starting with `<key>: `; the text is the remainder with edge quotes
stripped. -/
def findFrontmatterTitleGo (key : Line) (i : Nat) : List Line → Option LinePointer
  | [] => none
  | l :: rest =>
    if l = fmDelim then none
    else if (key ++ [':', ' ']).isPrefixOf l then
      some ⟨i, stripEdgeQuotes (l.drop (key.length + 2)), .Frontmatter⟩
    else findFrontmatterTitleGo key (i + 1) rest

/-- `findFrontmatterTitle` of the advanced variant. -/
def findFrontmatterTitle (key : Line) (fileLines : List Line) : Option LinePointer :=
  match fileLines with
  | [] => none
  | l0 :: rest => if l0 ≠ fmDelim then none else findFrontmatterTitleGo key 1 rest

/-- A title cache entry: the last-observed sanitized heading and
frontmatter titles (either can be `null`, stored as `none`). -/
structure TitleCacheEntry where
  heading : Option Line
  frontmatter : Option Line
deriving DecidableEq, Repr

/-- The title cache: an insertion-ordered map from path to entry (the
model of the JavaScript `Map`). -/
abbrev TitleCache := List (String × TitleCacheEntry)

/-- The cache capacity (`maxSize`, default 100). -/
def titleCacheMaxSize : Nat := 100

/-- `Map.set`: update in place when the key exists, append otherwise. -/
def mapSet (c : TitleCache) (p : String) (e : TitleCacheEntry) : TitleCache :=
  if c.any (fun kv => kv.1 == p) then
    c.map (fun kv => if kv.1 == p then (p, e) else kv)
  else c ++ [(p, e)]

/-- `TitleCache.get`: `null` on a miss; on a hit, delete and re-insert
the entry (the least-recently-used touch) and return it. -/
def cacheGet (c : TitleCache) (p : String) : Option TitleCacheEntry × TitleCache :=
  match c.find? (fun kv => kv.1 == p) with
  | none => (none, c)
  | some kv => (some kv.2, (c.eraseP (fun kv => kv.1 == p)) ++ [(p, kv.2)])

/-- `TitleCache.set`: evict the oldest entry at capacity, then
`Map.set`. -/
def cacheSet (c : TitleCache) (p : String) (e : TitleCacheEntry) : TitleCache :=
  let c := if c.length ≥ titleCacheMaxSize then c.tail else c
  mapSet c p e

/-- `TitleCache.move`: when the old path is present, `Map.set` its entry
under the new path and delete the old path. -/
def cacheMove (c : TitleCache) (oldPath newPath : String) : TitleCache :=
  match c.find? (fun kv => kv.1 == oldPath) with
  | none => c
  | some kv => (mapSet c newPath kv.2).eraseP (fun kv => kv.1 == oldPath)

/-- The per-file part of the plugin state: base name, parent folder
path and content lines of the active file. -/
structure FileState where
  basename : Line
  parentPath : String
  lines : List Line
deriving DecidableEq, Repr

/-- The plugin state the advanced handlers act on: the active file, its
vault path, the title cache and the re-entrancy flag. -/
structure State where
  file : FileState
  path : String
  cache : TitleCache
  isRenameInProgress : Bool
deriving DecidableEq, Repr

/-- The JavaScript runtime error relevant here: a `TypeError` from
dereferencing `null`. -/
inductive JsError where
  | typeError
deriving DecidableEq, Repr

/-- Template-literal stringification: `null` prints as the string
`"null"`. -/
def jsTemplate : Option Line → Line
  | none => "null".toList
  | some t => t

/-- `getTitle`: read the title from the requested source; a missing or
empty raw title is falsy and yields `null`; otherwise the sanitized
title (which may itself be the empty string) is returned. -/
def getTitle (st : Settings) (f : FileState) (source : TitleType) : Option Line :=
  let title? : Option Line :=
    match source with
    | .Filename => some f.basename
    | .Frontmatter => (findFrontmatterTitle st.frontmatterTitleKey f.lines).map (·.text)
    | .Heading => (findHeading f.lines (findNoteStart f.lines)).map (·.text)
  match title? with
  | none => none
  | some t => if t = [] then none else some (sanitizeHeading st.userIllegalSymbols t)

/-- `setTitle`: write `title` to the target.  The re-entrancy flag is
set on entry.  Filename target: a `null` title throws (`title.length`
dereferences `null`); a nonempty title differing from the sanitized
basename renames the file (moving the cache entry on success, only
showing a notice on failure) — and this branch returns without ever
clearing the re-entrancy flag.  Frontmatter/Heading targets replace or
insert the corresponding line and clear the flag. -/
def setTitle (st : Settings) (s : State) (renameOk : Bool) (title : Option Line)
    (target : TitleType) : Except JsError State :=
  let s := { s with isRenameInProgress := true }
  match target with
  | .Filename =>
    match title with
    | none => .error .typeError
    | some t =>
      if t.length > 0 && sanitizeHeading st.userIllegalSymbols s.file.basename != t then
        if renameOk then
          let oldPath := s.path
          let newPath := s.file.parentPath ++ "/" ++ (⟨t⟩ : String) ++ ".md"
          .ok { s with
                file := { s.file with basename := t },
                path := newPath,
                cache := cacheMove s.cache oldPath newPath }
        else .ok s
      else .ok s
  | .Frontmatter =>
    let lines := s.file.lines
    let newLines :=
      match findFrontmatterTitle st.frontmatterTitleKey lines with
      | some fm =>
        if some (sanitizeHeading st.userIllegalSymbols fm.text) ≠ title then
          replaceLineInFile lines fm.lineNumber
            (st.frontmatterTitleKey ++ ": \"".toList ++ jsTemplate title ++ "\"".toList)
        else lines
      | none =>
        if lines.head? ≠ some fmDelim then
          insertLineInFile lines 0
            ("---\n".toList ++ st.frontmatterTitleKey ++ ": \"".toList
              ++ jsTemplate title ++ "\"\n---".toList)
        else
          insertLineInFile lines 1
            (st.frontmatterTitleKey ++ ": \"".toList ++ jsTemplate title ++ "\"".toList)
    .ok { s with file := { s.file with lines := newLines }, isRenameInProgress := false }
  | .Heading =>
    let lines := s.file.lines
    let start := findNoteStart lines
    let newLines :=
      match findHeading lines start with
      | some heading =>
        if some (sanitizeHeading st.userIllegalSymbols heading.text) ≠ title then
          replaceHeading st.rw lines heading.lineNumber heading.style (jsTemplate title)
        else lines
      | none => insertHeading st.rw lines start (jsTemplate title)
    .ok { s with file := { s.file with lines := newLines }, isRenameInProgress := false }

/-- `syncTitle`: read the title from the source and, when it is not
`null`, write it to the target. -/
def syncTitle (st : Settings) (s : State) (renameOk : Bool)
    (source target : TitleType) : Except JsError State :=
  match getTitle st s.file source with
  | some title => setTitle st s renameOk (some title) target
  | none => .ok s

/-- `TitleCache.setFromFile`: refresh the cache entry for the file's
path from its current heading and frontmatter titles. -/
def setFromFile (st : Settings) (s : State) : State :=
  let entry : TitleCacheEntry :=
    ⟨getTitle st s.file .Heading, getTitle st s.file .Frontmatter⟩
  { s with cache := cacheSet s.cache s.path entry }

/-- `handleSyncFromContent`, the advanced variant's content-modify
handler, for a markdown `TFile` (`isMdFile`) that is the active file
(`isActive`).  Sets the re-entrancy flag; reads the frontmatter and
heading titles; when they differ, looks up the cached entry — `cache`
may be `null`, and `cache.frontmatter` then throws — determines which
sources changed, applies the precedence rule when a two-way
content sync is configured and both changed, propagates each change to
its configured targets (filename last), and refreshes the cache.  The
flag is cleared after the awaited block, so a throw inside it leaves the
flag set. -/
def handleSyncFromContent (st : Settings) (s : State) (renameOk : Bool)
    (isMdFile isActive excluded : Bool) : Except JsError State :=
  if !isMdFile then .ok s
  else if !isActive then .ok s
  else if fileIsIgnored st excluded s.path then .ok s
  else
    let s := { s with isRenameInProgress := true }
    let frontmatter := getTitle st s.file .Frontmatter
    let heading := getTitle st s.file .Heading
    let inner : Except JsError State :=
      if frontmatter = heading then .ok s
      else
        let precedence := st.contentPrecedence
        let nonPrecedence :=
          if precedence ≠ TitleType.Heading then TitleType.Heading else TitleType.Frontmatter
        match cacheGet s.cache s.path with
        | (none, _) => .error .typeError
        | (some cache, cache') => do
          let s := { s with cache := cache' }
          let changedFrontmatter := cache.frontmatter.isSome && frontmatter != cache.frontmatter
          let changedHeading := cache.heading.isSome && heading != cache.heading
          let (s, changedFrontmatter, changedHeading) ←
            if st.syncHeading.contains TitleType.Frontmatter
                && st.syncFrontmatter.contains TitleType.Heading
                && changedFrontmatter && changedHeading then do
              let s ← syncTitle st s renameOk precedence nonPrecedence
              if nonPrecedence = TitleType.Heading then
                pure (s, changedFrontmatter, false)
              else pure (s, false, changedHeading)
            else pure (s, changedFrontmatter, changedHeading)
          let s ←
            if changedHeading then do
              let s ←
                if st.syncHeading.contains TitleType.Frontmatter then
                  setTitle st s renameOk heading .Frontmatter
                else pure s
              if st.syncHeading.contains TitleType.Filename then
                setTitle st s renameOk heading .Filename
              else pure s
            else pure s
          let s ←
            if changedFrontmatter then do
              let s ←
                if st.syncFrontmatter.contains TitleType.Heading then
                  setTitle st s renameOk frontmatter .Heading
                else pure s
              if st.syncFrontmatter.contains TitleType.Filename then
                setTitle st s renameOk frontmatter .Filename
              else pure s
            else pure s
          pure (setFromFile st s)
    match inner with
    | .ok s => .ok { s with isRenameInProgress := false }
    | .error e => .error e

end Advanced

/-- Specification-side characterisation of `replaceAll` when every
pattern has at most one character: does the alternation keep the
character `c`?  (`false` exactly when the first pattern matching at a
position holding `c` is the one-character pattern `[c]`; an empty
pattern earlier in the list shadows it, producing only zero-length
matches.) -/
def keepsChar (pats : List Line) (c : Char) : Bool :=
  match pats.find? (fun p => p.isPrefixOf [c]) with
  | some (_ :: _) => false
  | _ => true

/-- Parity of fence-marker lines among the first `k` lines scanned from
`start` — the fence state `findHeading` is in when it reaches line
`start + k`. -/
def fencesBefore (lines : List Line) (start k : Nat) : Nat :=
  ((lines.drop start).take k).countP isFenceLine


/-! ## Helper lemmas -/

theorem findIdx?_delim_eq_some :
    ∀ (l : List Line) (j s : Nat), l.get? j = some fmDelim →
      (∀ j', j' < j → l.get? j' ≠ some fmDelim) →
      l.findIdx? (fun x => x == fmDelim) s = some (s + j) := by
  intro l
  induction l with
  | nil => intro j s h _; simp at h
  | cons a t ih =>
    intro j s h hmin
    rw [List.findIdx?_cons]
    by_cases ha : a = fmDelim
    · have hj : j = 0 := by
        by_contra hj0
        exact hmin 0 (Nat.pos_of_ne_zero hj0) (by simp [ha])
      subst hj
      simp [ha]
    · have hj : j ≠ 0 := by
        intro hj0
        subst hj0
        simp only [List.get?_cons_zero, Option.some.injEq] at h
        exact ha h
      obtain ⟨j', rfl⟩ : ∃ j', j = j' + 1 := ⟨j - 1, by omega⟩
      rw [if_neg (by simp [ha])]
      have hrec := ih j' (s + 1) (by simpa using h)
        (fun j'' hj'' => by
          have := hmin (j'' + 1) (by omega)
          simpa using this)
      rw [hrec]
      congr 1
      omega

theorem findIdx?_delim_eq_none :
    ∀ (l : List Line) (s : Nat), (∀ j, l.get? j ≠ some fmDelim) →
      l.findIdx? (fun x => x == fmDelim) s = none := by
  intro l
  induction l with
  | nil => intro s _; rfl
  | cons a t ih =>
    intro s h
    have ha : ¬ a = fmDelim := by
      intro hEq
      exact h 0 (by simp [hEq])
    rw [List.findIdx?_cons, if_neg (by simp [ha])]
    exact ih (s + 1) (fun j => by have := h (j + 1); simpa using this)

/-! ## Claim theorems (easy group) -/

/-- C10: for every lines array, index `n < length` and text `t`,
`replaceLineInFile` yields the document with exactly index `n` replaced
by `t`: the length is unchanged, index `n` holds `t`, and every other
index is unchanged. -/
theorem replaceLineInFile_frame (ls : List Line) (n : Nat) (t : Line)
    (h : n < ls.length) :
    (replaceLineInFile ls n t).length = ls.length ∧
    (replaceLineInFile ls n t).get? n = some t ∧
    ∀ m, m ≠ n → (replaceLineInFile ls n t).get? m = ls.get? m := by
  unfold replaceLineInFile
  rw [if_neg (by omega)]
  refine ⟨List.length_set ls n t, List.get?_set_eq_of_lt t h, ?_⟩
  intro m hm
  exact List.get?_set_ne t ls (Ne.symm hm)

theorem replaceLineInFile_frame_witness :
    (replaceLineInFile (["a", "b"].map String.toList) 1 "c".toList).get? 0
        = some "a".toList ∧
    (replaceLineInFile (["a", "b"].map String.toList) 1 "c".toList).get? 1
        = some "c".toList :=
  ⟨(replaceLineInFile_frame (["a", "b"].map String.toList) 1 "c".toList
      (by decide)).2.2 0 (by decide),
   (replaceLineInFile_frame (["a", "b"].map String.toList) 1 "c".toList
      (by decide)).2.1⟩

/-- C6: `findNoteStart` returns `i + 1` when line 0 is `---` and the
first closing `---` sits at index `i > 0`, and `0` when line 0 is not
`---` or no closing delimiter exists. -/
theorem findNoteStart_frontmatter_spec (lines : List Line) :
    (∀ i, lines.get? 0 = some fmDelim → 0 < i → lines.get? i = some fmDelim →
        (∀ j, 0 < j → j < i → lines.get? j ≠ some fmDelim) →
        findNoteStart lines = i + 1)
    ∧ ((lines.get? 0 ≠ some fmDelim ∨ ∀ i, 0 < i → lines.get? i ≠ some fmDelim) →
        findNoteStart lines = 0) := by
  constructor
  · intro i h0 hi hclose hmin
    match lines, h0 with
    | l0 :: rest, h0 =>
      have hl0 : l0 = fmDelim := by simpa using h0
      obtain ⟨i', rfl⟩ : ∃ i', i = i' + 1 := ⟨i - 1, by omega⟩
      have hrest : rest.get? i' = some fmDelim := by simpa using hclose
      have hmin' : ∀ j', j' < i' → rest.get? j' ≠ some fmDelim := by
        intro j' hj'
        have := hmin (j' + 1) (by omega) (by omega)
        simpa using this
      simp only [findNoteStart, if_pos hl0]
      rw [findIdx?_delim_eq_some rest i' 0 hrest hmin']
      simp
  · intro hcase
    match lines with
    | [] => rfl
    | l0 :: rest =>
      by_cases hl0 : l0 = fmDelim
      · rcases hcase with hne | hno
        · exact absurd (by simp [hl0]) hne
        · have : ∀ j, rest.get? j ≠ some fmDelim := by
            intro j
            have := hno (j + 1) (by omega)
            simpa using this
          simp only [findNoteStart, if_pos hl0]
          rw [findIdx?_delim_eq_none rest 0 this]
      · simp only [findNoteStart, if_neg hl0]

theorem findNoteStart_frontmatter_spec_witness :
    findNoteStart (["---", "a", "---", "x"].map String.toList) = 3 :=
  (findNoteStart_frontmatter_spec (["---", "a", "---", "x"].map String.toList)).1
    2 (by decide) (by decide) (by decide)
    (by
      intro j h1 h2
      have : j = 1 := by omega
      subst this
      decide)

/-- C1 (failing evaluation): renaming a manually-ignored file from
`old.md` to `new.md` leaves the manually-ignored set unchanged — the
old path is **not** removed and the new path is **not** added — because
the migration branch tests the JavaScript truthiness of the stored
value, which is always `null` and hence falsy.  No content mutation
occurs.  The claim (and the source's own comment) says the membership
is migrated to the new path. -/
theorem handleSyncFilenameToHeading_ignored_no_migration :
    Core.handleSyncFilenameToHeading
        ⟨[], Option.none, ["old.md"], .Prefix, false, "===".toList, true⟩
        false false "new.md" "new".toList ["# x".toList] "old.md"
      = (["old.md"], .none)
    ∧ ("old.md" ∈ (Core.handleSyncFilenameToHeading
        ⟨[], Option.none, ["old.md"], .Prefix, false, "===".toList, true⟩
        false false "new.md" "new".toList ["# x".toList] "old.md").1
    ∧ "new.md" ∉ (Core.handleSyncFilenameToHeading
        ⟨[], Option.none, ["old.md"], .Prefix, false, "===".toList, true⟩
        false false "new.md" "new".toList ["# x".toList] "old.md").1) := by
  constructor
  · rfl
  · exact ⟨by decide, by decide⟩

/-- C2 (failing evaluation): a heading→filename sync in the advanced
variant (`syncTitle` heading→filename, which calls `setTitle` with the
Filename target) returns with the re-entrancy flag still set, both when
the rename succeeds and when it fails: the Filename branch of
`setTitle` returns before the flag-clearing assignment.  The claim says
the flag is false again on every completion path. -/
theorem setTitle_filename_leaves_flag_set :
    (Advanced.syncTitle
        ⟨[], Option.none, [], .Prefix, false, "===".toList, "title".toList,
          .Frontmatter, [.Heading], [.Filename], []⟩
        ⟨⟨"B".toList, "notes", ["# A".toList]⟩, "notes/B.md", [], false⟩
        true .Heading .Filename).map (fun s => s.isRenameInProgress) = .ok true
    ∧ (Advanced.syncTitle
        ⟨[], Option.none, [], .Prefix, false, "===".toList, "title".toList,
          .Frontmatter, [.Heading], [.Filename], []⟩
        ⟨⟨"B".toList, "notes", ["# A".toList]⟩, "notes/B.md", [], false⟩
        false .Heading .Filename).map (fun s => s.isRenameInProgress) = .ok true :=
  ⟨rfl, rfl⟩

/-- C9 (failing evaluation): a content-modify event for an active
markdown file whose heading and frontmatter titles differ, when the
title cache has no entry for the file's path (`TitleCache.get` returns
`null`), makes `handleSyncFromContent` throw a `TypeError`
(dereferencing the `null` cache entry) instead of completing normally —
and the rejection also skips the flag-clearing assignment. -/
theorem handleSyncFromContent_throws_on_cache_miss :
    Advanced.handleSyncFromContent
        ⟨[], Option.none, [], .Prefix, false, "===".toList, "title".toList,
          .Frontmatter, [.Heading], [.Filename], []⟩
        ⟨⟨"B".toList, "notes", ["# A".toList]⟩, "notes/B.md", [], false⟩
        true true true false
      = .error .typeError := rfl

/-- C7 (counterexample): a basename whose sanitization is empty is
written into the document anyway — `forceSyncFilenameToHeading` has no
empty-title guard, so the file named `#` (sanitizing to the empty
string) gets its heading `# Something` replaced by the bare marker
`# `, a heading line carrying the empty title.  The claim says an empty
sanitized title makes the sync skip all writes. -/
theorem forceSyncFilenameToHeading_writes_empty_title :
    sanitizeHeading [] "#".toList = [] ∧
    Core.forceSyncFilenameToHeadingAction
        ⟨[], Option.none, [], .Prefix, false, "===".toList, true⟩
        ["# Something".toList] "#".toList
      = .modify ["# ".toList] := by
  constructor
  · rfl
  · rfl

/-- C7 (amended): an empty sanitized title never causes a rename — the
rename paths are guarded by a positive length check: the Core variant's
`forceSyncHeadingToFilename` does nothing when the sanitized heading is
empty, and the advanced variant's `setTitle` with the Filename target
does nothing (beyond setting the re-entrancy flag) when the title is
the empty string.  Heading and frontmatter writes carry no such
guard. -/
theorem empty_sanitized_title_never_renames :
    (∀ (s : Core.Settings) (lines : List Line) (basename : Line) (h : LinePointer),
        Core.findHeading lines (findNoteStart lines) = some h →
        sanitizeHeading s.userIllegalSymbols h.text = [] →
        Core.forceSyncHeadingToFilenameAction s lines basename = .none)
    ∧ (∀ (st : Advanced.Settings) (s : Advanced.State) (renameOk : Bool),
        Advanced.setTitle st s renameOk (some []) .Filename
          = .ok { s with isRenameInProgress := true }) := by
  constructor
  · intro s lines basename h hfind hsan
    unfold Core.forceSyncHeadingToFilenameAction
    rw [hfind]
    simp [hsan]
  · intro st s renameOk
    rfl

theorem empty_sanitized_title_never_renames_witness :
    Core.forceSyncHeadingToFilenameAction
        ⟨[], Option.none, [], .Prefix, false, "===".toList, true⟩
        ["# #".toList] "x".toList = .none
    ∧ Advanced.setTitle
        ⟨[], Option.none, [], .Prefix, false, "===".toList, "title".toList,
          .Frontmatter, [.Heading], [.Filename], []⟩
        ⟨⟨"B".toList, "notes", ["# A".toList]⟩, "notes/B.md", [], false⟩
        true (some []) .Filename
      = .ok ⟨⟨"B".toList, "notes", ["# A".toList]⟩, "notes/B.md", [], true⟩ :=
  ⟨empty_sanitized_title_never_renames.1
      ⟨[], Option.none, [], .Prefix, false, "===".toList, true⟩
      ["# #".toList] "x".toList ⟨0, "#".toList, .Prefix⟩ (by decide) (by decide),
   empty_sanitized_title_never_renames.2
      ⟨[], Option.none, [], .Prefix, false, "===".toList, "title".toList,
        .Frontmatter, [.Heading], [.Filename], []⟩
      ⟨⟨"B".toList, "notes", ["# A".toList]⟩, "notes/B.md", [], false⟩ true⟩

/-- C8 (counterexample): converting an Underline heading to Prefix
style with style replacement enabled does not remove the underline
line; it replaces it with an empty line, so the document keeps a
leftover (now blank) line where the underline stood.  The claim says
the document contains no leftover line there. -/
theorem replaceHeading_underline_to_prefix_leaves_blank_line :
    replaceHeading ⟨.Prefix, true, "===".toList⟩
        (["T", "===", "body"].map String.toList) 0 .Underline "New".toList
      = ["# New", "", "body"].map String.toList
    ∧ replaceHeading ⟨.Prefix, true, "===".toList⟩
        (["T", "===", "body"].map String.toList) 0 .Underline "New".toList
      ≠ ["# New", "body"].map String.toList := by
  constructor
  · rfl
  · decide

/-- C8 (amended): with style replacement enabled and Prefix as the new
style, replacing an Underline heading at `n` writes `# <newTitle>` at
`n`, replaces the underline line at `n + 1` with the empty line, and
leaves the line count and every other line unchanged. -/
theorem replaceHeading_underline_to_prefix_blanks_underline
    (rs : RewriteSettings) (lines : List Line) (n : Nat) (t : Line)
    (hrs : rs.replaceStyle = true) (hns : rs.newHeadingStyle = HeadingStyle.Prefix)
    (h : n + 1 < lines.length) :
    (replaceHeading rs lines n .Underline t).length = lines.length ∧
    (replaceHeading rs lines n .Underline t).get? n = some (hashSpace ++ t) ∧
    (replaceHeading rs lines n .Underline t).get? (n + 1) = some [] ∧
    ∀ m, m ≠ n → m ≠ n + 1 →
      (replaceHeading rs lines n .Underline t).get? m = lines.get? m := by
  obtain ⟨ns, rsty, us⟩ := rs
  simp only at hrs hns
  subst hrs hns
  have hres : replaceHeading ⟨HeadingStyle.Prefix, true, us⟩ lines n .Underline t
      = (lines.set n (hashSpace ++ t)).set (n + 1) [] := by
    simp only [replaceHeading, replaceLineInFile, if_true]
    rw [if_neg (show ¬ n ≥ lines.length by omega)]
    rw [if_neg (show ¬ n + 1 ≥ (lines.set n (hashSpace ++ t)).length by
      rw [List.length_set]; omega)]
  rw [hres]
  refine ⟨by simp [List.length_set], ?_, ?_, ?_⟩
  · rw [List.get?_set_ne _ _ (by omega), List.get?_set_eq_of_lt _ (by omega)]
  · rw [List.get?_set_eq_of_lt _ (by rw [List.length_set]; omega)]
  · intro m hm hm1
    rw [List.get?_set_ne _ _ (by omega), List.get?_set_ne _ _ (by omega)]

theorem replaceHeading_underline_to_prefix_blanks_underline_witness :
    (replaceHeading ⟨HeadingStyle.Prefix, true, "===".toList⟩
        (["T", "===", "body"].map String.toList) 0 .Underline "N".toList).get? 0
      = some ("# N".toList) ∧
    (replaceHeading ⟨HeadingStyle.Prefix, true, "===".toList⟩
        (["T", "===", "body"].map String.toList) 0 .Underline "N".toList).get? 1
      = some [] :=
  ⟨by
    have := (replaceHeading_underline_to_prefix_blanks_underline
      ⟨HeadingStyle.Prefix, true, "===".toList⟩
      (["T", "===", "body"].map String.toList) 0 "N".toList rfl rfl (by decide)).2.1
    simpa using this,
   (replaceHeading_underline_to_prefix_blanks_underline
      ⟨HeadingStyle.Prefix, true, "===".toList⟩
      (["T", "===", "body"].map String.toList) 0 "N".toList rfl rfl (by decide)).2.2.1⟩

/-! ## Sanitizer lemmas -/

theorem trimStart_trimStart (s : Line) : trimStart (trimStart s) = trimStart s := by
  unfold trimStart
  exact List.dropWhile_idempotent _ _

theorem trimEnd_trimEnd (s : Line) : trimEnd (trimEnd s) = trimEnd s := by
  unfold trimEnd
  rw [List.reverse_reverse, List.dropWhile_idempotent]

theorem trimEnd_cons (c : Char) (t : Line) :
    trimEnd (c :: t)
      = if trimEnd t = [] then (if isJsWhitespace c then [] else [c])
        else c :: trimEnd t := by
  by_cases h : List.dropWhile isJsWhitespace t.reverse = []
  · have ht : trimEnd t = [] := by simp [trimEnd, h]
    by_cases hc : isJsWhitespace c
    · simp [trimEnd, List.dropWhile_append, List.dropWhile_cons, h, ht, hc]
    · simp [trimEnd, List.dropWhile_append, List.dropWhile_cons, h, ht, hc]
  · have ht : ¬ trimEnd t = [] := by simp [trimEnd, h]
    simp [trimEnd, List.dropWhile_append, h, ht]

theorem trimEnd_trimStart (s : Line) : trimEnd (trimStart s) = trimStart (trimEnd s) := by
  induction s with
  | nil => rfl
  | cons c t ih =>
    by_cases hc : isJsWhitespace c
    · have h1 : trimStart (c :: t) = trimStart t := by
        simp [trimStart, List.dropWhile_cons, hc]
      rw [h1, ih, trimEnd_cons]
      by_cases h0 : trimEnd t = []
      · simp [h0, hc, trimStart]
      · rw [if_neg h0]
        simp [trimStart, List.dropWhile_cons, hc]
    · have h1 : trimStart (c :: t) = c :: t := by
        simp [trimStart, List.dropWhile_cons, hc]
      rw [h1, trimEnd_cons]
      by_cases h0 : trimEnd t = []
      · simp [h0, hc, trimStart, List.dropWhile_cons]
      · rw [if_neg h0]
        simp [trimStart, List.dropWhile_cons, hc]

theorem jsTrim_jsTrim (s : Line) : jsTrim (jsTrim s) = jsTrim s := by
  unfold jsTrim
  rw [trimEnd_trimStart, trimEnd_trimEnd, trimStart_trimStart]

theorem mem_of_mem_trimStart {c : Char} {s : Line} (h : c ∈ trimStart s) : c ∈ s :=
  List.Sublist.mem h (List.dropWhile_sublist _)

theorem mem_of_mem_trimEnd {c : Char} {s : Line} (h : c ∈ trimEnd s) : c ∈ s := by
  unfold trimEnd at h
  rw [List.mem_reverse] at h
  have := List.Sublist.mem h (List.dropWhile_sublist _)
  rwa [List.mem_reverse] at this

theorem mem_of_mem_jsTrim {c : Char} {s : Line} (h : c ∈ jsTrim s) : c ∈ s :=
  mem_of_mem_trimEnd (mem_of_mem_trimStart h)

theorem mem_of_mem_replaceAllGo (pats : List Line) :
    ∀ (s : Line) (skip : Nat) (c : Char), c ∈ replaceAllGo pats s skip → c ∈ s := by
  intro s
  induction s with
  | nil =>
    intro skip c h
    simp [replaceAllGo] at h
  | cons a rest ih =>
    intro skip c h
    match skip with
    | skip' + 1 =>
      simp only [replaceAllGo] at h
      exact List.mem_cons_of_mem a (ih skip' c h)
    | 0 =>
      cases hfind : pats.find? (fun p => p.isPrefixOf (a :: rest)) with
      | none =>
        simp only [replaceAllGo, hfind] at h
        rcases List.mem_cons.mp h with h | h
        · exact h ▸ List.mem_cons_self a rest
        · exact List.mem_cons_of_mem a (ih 0 c h)
      | some q =>
        cases q with
        | nil =>
          simp only [replaceAllGo, hfind] at h
          rcases List.mem_cons.mp h with h | h
          · exact h ▸ List.mem_cons_self a rest
          · exact List.mem_cons_of_mem a (ih 0 c h)
        | cons b p =>
          simp only [replaceAllGo, hfind] at h
          exact List.mem_cons_of_mem a (ih p.length c h)

theorem find?_isPrefixOf_short (pats : List Line) (hu : ∀ p ∈ pats, p.length ≤ 1)
    (c : Char) (rest : Line) :
    pats.find? (fun p => p.isPrefixOf (c :: rest))
      = pats.find? (fun p => p.isPrefixOf [c]) := by
  induction pats with
  | nil => rfl
  | cons q qs ih =>
    have hq := hu q (List.mem_cons_self q qs)
    have heq : q.isPrefixOf (c :: rest) = q.isPrefixOf [c] := by
      cases q with
      | nil => rfl
      | cons a q' =>
        cases q' with
        | nil => simp [List.isPrefixOf]
        | cons b q'' => simp at hq
    rw [List.find?_cons, List.find?_cons, heq]
    cases hq1 : q.isPrefixOf [c]
    · simp only [hq1]
      exact ih (fun p hp => hu p (List.mem_cons_of_mem q hp))
    · simp only [hq1]

theorem replaceAllGo_eq_filter (pats : List Line) (hu : ∀ p ∈ pats, p.length ≤ 1) :
    ∀ s : Line, replaceAllGo pats s 0 = s.filter (keepsChar pats) := by
  intro s
  induction s with
  | nil => rfl
  | cons a rest ih =>
    cases hfind : pats.find? (fun p => p.isPrefixOf [a]) with
    | none =>
      have hk : keepsChar pats a = true := by
        simp only [keepsChar, hfind]
      simp only [replaceAllGo, find?_isPrefixOf_short pats hu a rest, hfind,
        List.filter_cons, hk, if_true, ih]
    | some q =>
      cases q with
      | nil =>
        have hk : keepsChar pats a = true := by
          simp only [keepsChar, hfind]
        simp only [replaceAllGo, find?_isPrefixOf_short pats hu a rest, hfind,
          List.filter_cons, hk, if_true, ih]
      | cons b p =>
        have hp : p = [] := by
          have hmem := List.mem_of_find?_eq_some hfind
          have := hu (b :: p) hmem
          simp at this
          simpa using this
        subst hp
        have hk : keepsChar pats a = false := by
          simp only [keepsChar, hfind]
        simp only [replaceAllGo, find?_isPrefixOf_short pats hu a rest, hfind,
          List.filter_cons, hk, List.length_nil, ih]
        simp

theorem keepsChar_eq_false_of_mem (u : List Line) (hu : ∀ p ∈ u, p.length = 1)
    (c : Char) (hc : [c] ∈ u) : keepsChar u c = false := by
  unfold keepsChar
  cases hfind : u.find? (fun p => p.isPrefixOf [c]) with
  | none =>
    rw [List.find?_eq_none] at hfind
    have := hfind [c] hc
    simp [List.isPrefixOf] at this
  | some q =>
    have hq := List.mem_of_find?_eq_some hfind
    have hl := hu q hq
    match q, hl with
    | [d], _ => rfl

/-- C3 (counterexample): sanitize is not idempotent for every user
illegal-symbol list — removing every occurrence of a multi-character
symbol can create a fresh occurrence.  With the user list `["ab"]`,
sanitizing `"aabb"` removes the middle `ab` and yields `"ab"`, and a
second sanitization pass removes that too. -/
theorem sanitizeHeading_not_idempotent :
    sanitizeHeading ["ab".toList] (sanitizeHeading ["ab".toList] "aabb".toList)
      ≠ sanitizeHeading ["ab".toList] "aabb".toList := by decide

/-- C3 (amended): sanitize is idempotent for every string whenever every
configured user illegal symbol has at most one character (in particular
for the default empty list, and for lists containing empty entries): the
stock pass and the user pass are then both character filters, and a
filtered, trimmed string is a fixed point of both. -/
theorem sanitizeHeading_idempotent_of_short_symbols
    (u : List Line) (hu : ∀ p ∈ u, p.length ≤ 1) (x : Line) :
    sanitizeHeading u (sanitizeHeading u x) = sanitizeHeading u x := by
  have hok : ∀ c ∈ sanitizeHeading u x, (!isStockIllegal c) = true := by
    intro c hc
    have h1 : c ∈ replaceAll u (x.filter (fun c => !isStockIllegal c)) :=
      mem_of_mem_jsTrim hc
    have h2 := mem_of_mem_replaceAllGo u _ 0 c h1
    exact (List.mem_filter.mp h2).2
  have hkeep : ∀ c ∈ sanitizeHeading u x, keepsChar u c = true := by
    intro c hc
    have h1 : c ∈ replaceAll u (x.filter (fun c => !isStockIllegal c)) :=
      mem_of_mem_jsTrim hc
    rw [replaceAll, replaceAllGo_eq_filter u hu] at h1
    exact (List.mem_filter.mp h1).2
  show jsTrim (replaceAll u ((sanitizeHeading u x).filter (fun c => !isStockIllegal c)))
      = sanitizeHeading u x
  rw [List.filter_eq_self.mpr hok, replaceAll, replaceAllGo_eq_filter u hu,
    List.filter_eq_self.mpr hkeep]
  exact jsTrim_jsTrim _

theorem sanitizeHeading_idempotent_of_short_symbols_witness :
    sanitizeHeading [['a']] (sanitizeHeading [['a']] "banana#".toList)
      = sanitizeHeading [['a']] "banana#".toList :=
  sanitizeHeading_idempotent_of_short_symbols [['a']] (by decide) "banana#".toList

/-- C4 (counterexample): the sanitized result can still contain an
occurrence of a configured user illegal string: with user list `["ab"]`
the result of sanitizing `"aabb"` is `"ab"` itself. -/
theorem sanitizeHeading_leaves_user_symbol_occurrence :
    sanitizeHeading ["ab".toList] "aabb".toList = "ab".toList
    ∧ "ab".toList <:+: sanitizeHeading ["ab".toList] "aabb".toList := by
  constructor
  · rfl
  · decide

/-- C4 (amended): for every string and every user list, the sanitized
result contains no stock filesystem-illegal character
(`\ / : | # ^ [ ]`) and has no leading or trailing whitespace (it is a
`trim` fixed point); and when every user illegal symbol is a single
character, no user symbol occurs in the result either.  (A
multi-character symbol can survive, as the counterexample shows.) -/
theorem sanitizeHeading_removes_illegal (u : List Line) (x : Line) :
    (∀ c ∈ sanitizeHeading u x, isStockIllegal c = false)
    ∧ jsTrim (sanitizeHeading u x) = sanitizeHeading u x
    ∧ ((∀ p ∈ u, p.length = 1) → ∀ p ∈ u, ¬ (p <:+: sanitizeHeading u x)) := by
  refine ⟨?_, jsTrim_jsTrim _, ?_⟩
  · intro c hc
    have h1 : c ∈ replaceAll u (x.filter (fun c => !isStockIllegal c)) :=
      mem_of_mem_jsTrim hc
    have h2 := mem_of_mem_replaceAllGo u _ 0 c h1
    have := (List.mem_filter.mp h2).2
    simpa using this
  · intro hu p hp hinf
    obtain ⟨c, rfl⟩ : ∃ c, p = [c] := by
      have := hu p hp
      match p, this with
      | [c], _ => exact ⟨c, rfl⟩
    have hc : c ∈ sanitizeHeading u x :=
      List.Sublist.mem (List.mem_singleton_self c) hinf.sublist
    have hkeep : keepsChar u c = true := by
      have h1 : c ∈ replaceAll u (x.filter (fun c => !isStockIllegal c)) :=
        mem_of_mem_jsTrim hc
      rw [replaceAll, replaceAllGo_eq_filter u (fun q hq => le_of_eq (hu q hq))] at h1
      exact (List.mem_filter.mp h1).2
    have hfalse := keepsChar_eq_false_of_mem u hu c hp
    rw [hkeep] at hfalse
    exact absurd hfalse (by simp)

theorem sanitizeHeading_removes_illegal_witness :
    (∀ c ∈ sanitizeHeading [['a']] " b#a/na ".toList, isStockIllegal c = false)
    ∧ ¬ (['a'] <:+: sanitizeHeading [['a']] " b#a/na ".toList) :=
  ⟨(sanitizeHeading_removes_illegal [['a']] " b#a/na ".toList).1,
   (sanitizeHeading_removes_illegal [['a']] " b#a/na ".toList).2.2
     (by decide) ['a'] (by decide)⟩

/-! ## Fence-tracking lemmas -/

theorem findHeadingGo_fence_spec :
    ∀ (rem : List Line) (i : Nat) (b : Bool) (ptr : LinePointer),
      Core.findHeadingGo i b rem = some ptr →
      ∃ k, ptr.lineNumber = i + k ∧
        (rem.take k).countP isFenceLine % 2 = (if b then 1 else 0) ∧
        ∃ raw, rem.get? k = some raw ∧ isFenceLine raw = false := by
  intro rem
  induction rem with
  | nil =>
    intro i b ptr h
    simp [Core.findHeadingGo] at h
  | cons raw rest ih =>
    intro i b ptr h
    by_cases hf : fenceMarker.isPrefixOf (jsTrim (trimEnd raw)) = true
    · unfold Core.findHeadingGo at h
      rw [if_pos hf] at h
      obtain ⟨k, hk, hpar, raw', hget, hraw'⟩ := ih (i + 1) (!b) ptr h
      refine ⟨k + 1, by omega, ?_, raw', by simpa using hget, hraw'⟩
      rw [List.take_succ_cons, List.countP_cons]
      have hfl : isFenceLine raw = true := hf
      rw [hfl]
      simp only [if_true]
      cases b <;> simp at hpar ⊢ <;> omega
    · have hfl : isFenceLine raw = false := by
        unfold isFenceLine
        exact Bool.not_eq_true _ ▸ (by simpa using hf)
      unfold Core.findHeadingGo at h
      rw [if_neg hf] at h
      cases b with
      | true =>
        rw [if_pos rfl] at h
        obtain ⟨k, hk, hpar, raw', hget, hraw'⟩ := ih (i + 1) true ptr h
        refine ⟨k + 1, by omega, ?_, raw', by simpa using hget, hraw'⟩
        rw [List.take_succ_cons, List.countP_cons, hfl]
        simpa using hpar
      | false =>
        rw [if_neg (by simp)] at h
        by_cases hp : (hashSpace.isPrefixOf (trimEnd raw)
            && countBackticks (trimEnd raw) % 2 == 0
            && !(escapedHash.isPrefixOf (trimEnd raw))) = true
        · rw [if_pos hp] at h
          refine ⟨0, ?_, by simp, raw, rfl, hfl⟩
          have := congrArg (fun o => o.map LinePointer.lineNumber) h
          simpa using this.symm
        · rw [if_neg hp] at h
          cases rest with
          | nil =>
            simp only [List.head?_nil] at h
            obtain ⟨k, hk, hpar, raw', hget, hraw'⟩ := ih (i + 1) false ptr h
            refine ⟨k + 1, by omega, ?_, raw', by simpa using hget, hraw'⟩
            rw [List.take_succ_cons, List.countP_cons, hfl]
            simpa using hpar
          | cons next rest' =>
            simp only [List.head?_cons] at h
            by_cases hu : (isEqRun (jsTrim next) && (trimEnd raw).length > 0
                && countBackticks (trimEnd raw) % 2 == 0) = true
            · rw [if_pos hu] at h
              refine ⟨0, ?_, by simp, raw, rfl, hfl⟩
              have := congrArg (fun o => o.map LinePointer.lineNumber) h
              simpa using this.symm
            · rw [if_neg hu] at h
              obtain ⟨k, hk, hpar, raw', hget, hraw'⟩ := ih (i + 1) false ptr h
              refine ⟨k + 1, by omega, ?_, raw', by simpa using hget, hraw'⟩
              rw [List.take_succ_cons, List.countP_cons, hfl]
              simpa using hpar

/-- C5: the fence-tracking `findHeading` never returns a heading inside
a fenced code block: whenever it returns a pointer, the number of
fence-marker lines strictly between `startLine` and the returned line is
even (the fence state there is "outside"), and the returned line is not
itself a fence marker; and on
`['x','```','# inside','```','# H','y']` from 0 it returns the heading
at index 4, not index 2. -/
theorem findHeading_skips_fenced_code :
    (∀ (lines : List Line) (start : Nat) (ptr : LinePointer),
        Core.findHeading lines start = some ptr →
        ∃ k, ptr.lineNumber = start + k ∧
          fencesBefore lines start k % 2 = 0 ∧
          ∃ raw, (lines.drop start).get? k = some raw ∧ isFenceLine raw = false)
    ∧ Core.findHeading (["x", "```", "# inside", "```", "# H", "y"].map String.toList) 0
        = some ⟨4, "H".toList, .Prefix⟩ := by
  constructor
  · intro lines start ptr h
    obtain ⟨k, hk, hpar, raw, hget, hraw⟩ :=
      findHeadingGo_fence_spec (lines.drop start) start false ptr h
    exact ⟨k, hk, by simpa [fencesBefore] using hpar, raw, hget, hraw⟩
  · decide

theorem findHeading_skips_fenced_code_witness :
    ∃ k, (4 : Nat) = 0 + k ∧
      fencesBefore (["x", "```", "# inside", "```", "# H", "y"].map String.toList) 0 k % 2 = 0 ∧
      ∃ raw,
        ((["x", "```", "# inside", "```", "# H", "y"].map String.toList).drop 0).get? k
          = some raw ∧ isFenceLine raw = false :=
  findHeading_skips_fenced_code.1
    (["x", "```", "# inside", "```", "# H", "y"].map String.toList) 0
    ⟨4, "H".toList, .Prefix⟩ (by decide)
